import Mathlib

/-
Verification of the churn-prediction notebook's data pipeline.

The notebook loads a CSV into a data frame, cleans it (drops `customerID`,
coerces `TotalCharges` to numbers with unparseable entries becoming NaN,
imputes the column median, maps the `Churn` label through {No ↦ 0, Yes ↦ 1}),
splits rows 80/20 stratified on the label with a fixed seed, fits a
ColumnTransformer (StandardScaler on numeric columns, OneHotEncoder with
drop=first and handle_unknown=ignore on categorical columns) on the training
partition, transforms both partitions, and evaluates six seeded classifiers
by accuracy and a 2×2 confusion matrix.

The embedding below follows the notebook cell by cell; pandas and
scikit-learn calls are modelled by their documented, deterministic
semantics over exact rationals.  Square roots (used only by the scaler)
are kept as an explicit function parameter `sq`, since the claims either
hold for every choice of `sq` or constrain `sq` to square to the variance.
-/

set_option maxHeartbeats 1000000

namespace Churn

/-- A cell of a pandas data frame: a string, a numeric value, or NaN. -/
inductive Cell
  | str (s : String)
  | num (q : ℚ)
  | nan
  deriving DecidableEq, Repr

/-- A data frame: named columns of cells (column order as in the CSV). -/
abbrev Df := List (String × List Cell)

/-- Column lookup, `df[name]`: the first column carrying `name` ([] if absent). -/
def getCol (name : String) : Df → List Cell
  | [] => []
  | p :: t => if p.1 = name then p.2 else getCol name t

/-- `df.drop(name, axis=1)`: remove every column labelled `name`. -/
def dropCol (name : String) : Df → Df
  | [] => []
  | p :: t => if p.1 = name then dropCol name t else p :: dropCol name t

/-- `df[name] = df[name].map f`: rewrite the cells of the column(s) labelled
`name`, leaving all other columns untouched. -/
def mapCol (name : String) (f : Cell → Cell) : Df → Df
  | [] => []
  | p :: t => (if p.1 = name then (p.1, p.2.map f) else p) :: mapCol name f t

/-- The list of column names of a frame. -/
def colNames (df : Df) : List String := df.map Prod.fst

/-- Value of a digit string. -/
def digitsToNat (cs : List Char) : ℕ :=
  cs.foldl (fun a c => 10 * a + (c.toNat - Char.toNat (Char.ofNat 48))) 0

/-- Parse a decimal literal as `pd.to_numeric` does on the charge strings of
this dataset: optional surrounding spaces, optional sign, digits with an
optional fractional part; anything else (such as the blank strings occurring
for zero-tenure customers) fails to parse. -/
def parseDecimal (s : String) : Option ℚ :=
  let cs := ((s.toList.dropWhile (· == ' ')).reverse.dropWhile (· == ' ')).reverse
  let sign : ℚ := if cs.headD ' ' = '-' then -1 else 1
  let cs := if cs.headD ' ' = '-' ∨ cs.headD ' ' = '+' then cs.tail else cs
  let intPart := cs.takeWhile Char.isDigit
  let rest := cs.dropWhile Char.isDigit
  match rest with
  | [] =>
    if intPart.isEmpty then none
    else some (sign * (digitsToNat intPart : ℚ))
  | '.' :: frac =>
    let fracDigits := frac.takeWhile Char.isDigit
    if (frac.dropWhile Char.isDigit).isEmpty ∧ ¬ (intPart.isEmpty ∧ fracDigits.isEmpty) then
      some (sign * ((digitsToNat intPart : ℚ) +
        (digitsToNat fracDigits : ℚ) / (10 ^ fracDigits.length)))
    else none
  | _ => none

/-- `pd.to_numeric(·, errors='coerce')` on one cell: numbers pass through,
strings are parsed, anything unparseable becomes NaN — never an error. -/
def toNumericCell (c : Cell) : Cell :=
  match c with
  | .num q => .num q
  | .nan => .nan
  | .str s =>
    match parseDecimal s with
    | some q => .num q
    | none => .nan

/-- The numeric (non-NaN, non-string) values of a column, in order. -/
def numericValues (col : List Cell) : List ℚ :=
  col.filterMap (fun c => match c with | .num q => some q | _ => none)

/-- Ordered insertion, for the sort underlying the median. -/
def insertQ (x : ℚ) : List ℚ → List ℚ
  | [] => [x]
  | y :: ys => if x ≤ y then x :: y :: ys else y :: insertQ x ys

/-- Sort a list of rationals. -/
def sortQ (xs : List ℚ) : List ℚ := xs.foldr insertQ []

/-- `Series.median()` over the non-missing values: NaN (`none`) on an empty
list, the middle element for odd length, the mean of the two middle elements
for even length. -/
def medianQ (xs : List ℚ) : Option ℚ :=
  let s := sortQ xs
  let n := s.length
  if n = 0 then none
  else if n % 2 = 1 then some (s.getD (n / 2) 0)
  else some ((s.getD (n / 2 - 1) 0 + s.getD (n / 2) 0) / 2)

/-- `Series.fillna(v)` on one cell, where `v` is the (possibly NaN) median:
filling with NaN leaves NaN cells as they are. -/
def fillCell (v : Option ℚ) (c : Cell) : Cell :=
  match c, v with
  | .nan, some q => .num q
  | c, _ => c

/-- `df['Churn'].map({'No': 0, 'Yes': 1})` on one cell: any value outside the
dictionary — including numbers, NaN and unexpected strings — is silently
mapped to NaN. -/
def mapChurnCell (c : Cell) : Cell :=
  match c with
  | .str s => if s = "No" then .num 0 else if s = "Yes" then .num 1 else .nan
  | _ => .nan

/-- The cleaning cell of the notebook: drop `customerID`, coerce
`TotalCharges` to numbers, impute the column median over the whole frame,
and remap the `Churn` label. -/
def clean (df : Df) : Df :=
  let df1 := dropCol "customerID" df
  let df2 := mapCol "TotalCharges" toNumericCell df1
  let med := medianQ (numericValues (getCol "TotalCharges" df2))
  let df3 := mapCol "TotalCharges" (fillCell med) df2
  mapCol "Churn" mapChurnCell df3

/-- The parsed (non-missing) total-charge values of a raw frame, over the
whole dataset; their median is the imputation value used by `clean`. -/
def parsedCharges (df : Df) : List ℚ :=
  numericValues ((getCol "TotalCharges" df).map toNumericCell)

/-- The loader: `pd.read_csv` inside `try/except FileNotFoundError: raise`.
Its input is the file system's answer for `class1_dataset.csv` (`none` when
the file is missing); a missing file aborts with the printed diagnostic and
the re-raised error, and no placeholder frame is substituted. -/
def loadCsv (file : Option Df) : Except String Df :=
  match file with
  | none => .error "FileNotFoundError: class1_dataset.csv"
  | some df => .ok df

/-! ## Feature transformer -/

/-- A feature row: the declared-numeric attributes in original column order,
then the declared-categorical attributes in original column order. -/
structure FRow where
  nums : List ℚ
  cats : List String
  deriving DecidableEq, Repr

instance : Inhabited FRow := ⟨⟨[], []⟩⟩

/-- Arithmetic mean of a column (0 on an empty column, as a convention). -/
def meanQ (xs : List ℚ) : ℚ := xs.sum / xs.length

/-- Population variance (ddof = 0), as `StandardScaler` computes it. -/
def varQ (xs : List ℚ) : ℚ :=
  (xs.map (fun x => (x - meanQ xs) * (x - meanQ xs))).sum / xs.length

/-- The `j`-th numeric feature column of a partition. -/
def numColumn (j : ℕ) (rows : List FRow) : List ℚ :=
  rows.map (fun r => r.nums.getD j 0)

/-- The `j`-th categorical feature column of a partition. -/
def catColumn (j : ℕ) (rows : List FRow) : List String :=
  rows.map (fun r => r.cats.getD j "")

/-- Lexicographic comparison of code-point sequences — the order `np.unique`
sorts string arrays by. -/
def charsLe : List Char → List Char → Bool
  | [], _ => true
  | _ :: _, [] => false
  | a :: as, b :: bs =>
    if a.toNat < b.toNat then true
    else if b.toNat < a.toNat then false
    else charsLe as bs

/-- `a ≤ b` on strings by code points. -/
def strLe (a b : String) : Bool := charsLe a.toList b.toList

/-- Ordered insertion on strings. -/
def insertStr (x : String) : List String → List String
  | [] => [x]
  | y :: ys => if strLe x y then x :: y :: ys else y :: insertStr x ys

/-- Sort a list of strings. -/
def sortStr (xs : List String) : List String := xs.foldr insertStr []

/-- The category vocabulary of a column as `OneHotEncoder` records it:
the sorted distinct values (`np.unique`). -/
def vocabOf (xs : List String) : List String := sortStr xs.dedup

/-- The immutable state stored by fitting the composite transformer:
per-numeric-column mean and variance (the scaler keeps `sqrt` of the
variance as `scale_`; we keep the variance, an equivalent record), and
per-categorical-column the category vocabulary. -/
structure FitState where
  means : List ℚ
  vars : List ℚ
  vocabs : List (List String)
  deriving DecidableEq, Repr

/-- `preprocessor.fit`: compute the state from the given partition only. -/
def fit (rows : List FRow) : FitState :=
  let nw := (rows.headD default).nums.length
  let cw := (rows.headD default).cats.length
  { means := (List.range nw).map (fun j => meanQ (numColumn j rows))
  , vars := (List.range nw).map (fun j => varQ (numColumn j rows))
  , vocabs := (List.range cw).map (fun j => vocabOf (catColumn j rows)) }

/-- `StandardScaler.scale_` for a stored variance: `sqrt` of the variance,
with exact zeros replaced by 1 (`_handle_zeros_in_scale`) so transforming a
constant column never divides by zero.  The square root is the parameter
`sq`. -/
def scaleOf (sq : ℚ → ℚ) (v : ℚ) : ℚ :=
  if sq v = 0 then 1 else sq v

/-- One-hot encoding of one value over a stored vocabulary with
`drop='first'` and `handle_unknown='ignore'`: one indicator per vocabulary
entry after the dropped first (reference) level; a value that is unseen or
equals the reference level yields all zeros, never an error. -/
def encodeCat (vocab : List String) (v : String) : List ℚ :=
  vocab.tail.map (fun c => if v = c then 1 else 0)

/-- `preprocessor.transform` on one row: standardized numeric features in
original order, then the indicator blocks of the categorical features. -/
def transformRow (sq : ℚ → ℚ) (st : FitState) (r : FRow) : List ℚ :=
  (List.range st.means.length).map
    (fun j => (r.nums.getD j 0 - st.means.getD j 0) / scaleOf sq (st.vars.getD j 0))
  ++ (List.range st.vocabs.length).flatMap
    (fun j => encodeCat (st.vocabs.getD j []) (r.cats.getD j ""))

/-- `preprocessor.transform` on a partition. -/
def transform (sq : ℚ → ℚ) (st : FitState) (rows : List FRow) : List (List ℚ) :=
  rows.map (transformRow sq st)

/-- The notebook's processing step: `fit_transform` on the training
partition, then `transform` — with the state fitted from the training
partition — on the test partition. -/
def processedPair (sq : ℚ → ℚ) (train test : List FRow) :
    List (List ℚ) × List (List ℚ) :=
  let st := fit train
  (transform sq st train, transform sq st test)

/-! ## Stratified splitter -/

/-- `n_test` for `test_size=0.2`: `ceil(n / 5)`, as computed by
`train_test_split`. -/
def nTestOf (n : ℕ) : ℕ := (n + 4) / 5

/-- `n_train = n - n_test` (`train_size` is left as `None`). -/
def nTrainOf (n : ℕ) : ℕ := n - nTestOf n

/-- The row indices of `labels` (from position `k` on) carrying class `b`. -/
def classIdx (b : Bool) : List Bool → ℕ → List ℕ
  | [], _ => []
  | l :: ls, k => if l = b then k :: classIdx b ls (k + 1) else classIdx b ls (k + 1)

/-- `_approximate_mode` for the two churn classes: how many train rows the
class-1 (churn) stratum receives.  The floors of the proportional shares are
taken, and the at-most-one leftover slot goes to the class with the larger
fractional remainder; on an exact tie the choice is random, modelled by the
parameter `tie`. -/
def trainCount1 (c0 c1 t : ℕ) (tie : Bool) : ℕ :=
  let n := c0 + c1
  let f1 := c1 * t / n
  let f0 := c0 * t / n
  let r1 := c1 * t % n
  let r0 := c0 * t % n
  if t - f0 - f1 = 0 then f1
  else if r0 < r1 then f1 + 1
  else if r1 < r0 then f1
  else if tie then f1 else f1 + 1

/-- `train_test_split(..., test_size=0.2, stratify=y)`: each class stratum
is shuffled (the shuffles `p0`, `p1` are permutations of the class index
lists, produced by the seeded RNG), the first `trainCount` indices of each
stratum form the training partition and the remainder the test partition. -/
def stratSplit (labels : List Bool) (p0 p1 : List ℕ) (tie : Bool) :
    List ℕ × List ℕ :=
  let c0 := labels.count false
  let c1 := labels.count true
  let t := nTrainOf labels.length
  let k1 := trainCount1 c0 c1 t tie
  let k0 := t - k1
  (p0.take k0 ++ p1.take k1, p0.drop k0 ++ p1.drop k1)

/-- Number of churners (class-1 rows) among the rows named by `idx`. -/
def churnCountAt (labels : List Bool) (idx : List ℕ) : ℕ :=
  idx.countP (fun i => labels.getD i false)

/-! ## Metrics -/

/-- `confusion_matrix(y_true, y_pred)` for binary labels, flattened as
(TN, FP, FN, TP): rows of the matrix are actual {0,1}, columns predicted
{0,1}. -/
def confusionCounts (yTrue yPred : List Bool) : ℕ × ℕ × ℕ × ℕ :=
  let pairs := yTrue.zip yPred
  ( pairs.countP (fun p => !p.1 && !p.2)
  , pairs.countP (fun p => !p.1 && p.2)
  , pairs.countP (fun p => p.1 && !p.2)
  , pairs.countP (fun p => p.1 && p.2) )

/-- `accuracy_score(y_true, y_pred)`: matching positions over total. -/
def accuracy (yTrue yPred : List Bool) : ℚ :=
  ((yTrue.zip yPred).countP (fun p => p.1 == p.2) : ℚ) / yTrue.length

/-! ## The full run -/

/-- A classifier under the notebook's contract: fit on a training matrix and
label vector, then predict on a test matrix — a pure function of the seed
and its inputs (each of the six models is constructed with an explicit
`random_state`). -/
abbrev Model := ℕ → List (List ℚ) → List Bool → List (List ℚ) → List Bool

/-- `check_random_state`: an sklearn estimator with `random_state=None`
draws from the global RNG state; with an explicit integer it uses that
integer and ignores the global state. -/
def effectiveSeed (randomState : Option ℕ) (globalRng : ℕ) : ℕ :=
  randomState.getD globalRng

/-- The notebook passes `random_state=42` to `train_test_split`. -/
def splitRandomState : Option ℕ := some 42

/-- Every one of the six classifiers is constructed with `random_state=42`. -/
def modelRandomState : Option ℕ := some 42

/-- The library facilities a run consumes, abstracted: the seeded
stratum shuffler and tie-breaker used by the splitter, one of the six
classifiers, and the scaler's square root. -/
structure RunConfig where
  shuffle : ℕ → List ℕ → List ℕ
  tie : ℕ → Bool
  model : Model
  sq : ℚ → ℚ

/-- Is a cleaned column numeric (`select_dtypes`): true when no cell is a
string, so the column's dtype is a float/int dtype rather than object. -/
def isNumericCol (col : List Cell) : Bool :=
  col.all (fun c => match c with | .str _ => false | _ => true)

/-- Number of rows of a frame. -/
def rowCount (df : Df) : ℕ := ((df.headD ("", [])).2).length

/-- Numeric content of a cell (cleaned numeric columns hold only numbers). -/
def cellToQ (c : Cell) : ℚ := match c with | .num q => q | _ => 0

/-- String content of a cell (categorical columns hold only strings). -/
def cellToStr (c : Cell) : String := match c with | .str s => s | _ => ""

/-- `X = df.drop('Churn', axis=1)` turned into feature rows: the
declared-numeric columns (by dtype) in original order, then the
declared-categorical columns in original order — the column order the
ColumnTransformer produces. -/
def featureRows (df : Df) : List FRow :=
  let X := dropCol "Churn" df
  let numCols := (X.filter (fun p => isNumericCol p.2)).map Prod.snd
  let catCols := (X.filter (fun p => !isNumericCol p.2)).map Prod.snd
  (List.range (rowCount df)).map (fun i =>
    { nums := numCols.map (fun col => cellToQ (col.getD i .nan))
    , cats := catCols.map (fun col => cellToStr (col.getD i (.str ""))) })

/-- `y = df['Churn']` as booleans (1 = churn). -/
def churnLabels (df : Df) : List Bool :=
  (getCol "Churn" df).map (fun c => c == Cell.num 1)

/-- One full run of the pipeline on the (possibly missing) input file with
ambient global RNG state `g`: load, clean, stratified split with
`random_state=42`, fit the transformer on the training partition, transform
both partitions, fit/predict the classifier with `random_state=42`, and
report the train/test index partitions together with the confusion counts. -/
def runOnce (cfg : RunConfig) (g : ℕ) (file : Option Df) :
    Except String ((List ℕ × List ℕ) × (ℕ × ℕ × ℕ × ℕ)) := do
  let raw ← loadCsv file
  let df := clean raw
  let labels := churnLabels df
  let rows := featureRows df
  let s := effectiveSeed splitRandomState g
  let p0 := cfg.shuffle s (classIdx false labels 0)
  let p1 := cfg.shuffle s (classIdx true labels 0)
  let pr := stratSplit labels p0 p1 (cfg.tie s)
  let train := pr.1.map (fun i => rows.getD i default)
  let test := pr.2.map (fun i => rows.getD i default)
  let st := fit train
  let xTrain := transform cfg.sq st train
  let xTest := transform cfg.sq st test
  let yTrain := pr.1.map (fun i => labels.getD i false)
  let yTest := pr.2.map (fun i => labels.getD i false)
  let preds := cfg.model (effectiveSeed modelRandomState g) xTrain yTrain xTest
  return (pr, confusionCounts yTest preds)

/-! ## Frame lemmas -/

lemma getCol_mapCol_self (n : String) (f : Cell → Cell) (df : Df) :
    getCol n (mapCol n f df) = (getCol n df).map f := by
  induction df with
  | nil => rfl
  | cons p t ih =>
    by_cases h : p.1 = n
    · simp [mapCol, getCol, h]
    · simp [mapCol, getCol, h, ih]

lemma getCol_mapCol_ne (n m : String) (hnm : n ≠ m) (f : Cell → Cell) (df : Df) :
    getCol n (mapCol m f df) = getCol n df := by
  have hmn : m ≠ n := Ne.symm hnm
  induction df with
  | nil => rfl
  | cons p t ih =>
    by_cases h : p.1 = m
    · have hpn : p.1 ≠ n := by rw [h]; exact hmn
      simp [mapCol, getCol, h, hpn, hmn, ih]
    · by_cases h2 : p.1 = n
      · simp [mapCol, getCol, h, h2, hnm, hmn]
      · simp [mapCol, getCol, h, h2, hnm, hmn, ih]

lemma getCol_dropCol_ne (n m : String) (hnm : n ≠ m) (df : Df) :
    getCol n (dropCol m df) = getCol n df := by
  have hmn : m ≠ n := Ne.symm hnm
  induction df with
  | nil => rfl
  | cons p t ih =>
    by_cases h : p.1 = m
    · have hpn : p.1 ≠ n := by rw [h]; exact hmn
      simp [dropCol, getCol, h, hpn, hmn, ih]
    · by_cases h2 : p.1 = n
      · simp [dropCol, getCol, h, h2, hnm, hmn]
      · simp [dropCol, getCol, h, h2, hnm, hmn, ih]

lemma colNames_mapCol (m : String) (f : Cell → Cell) (df : Df) :
    colNames (mapCol m f df) = colNames df := by
  induction df with
  | nil => rfl
  | cons p t ih =>
    by_cases h : p.1 = m <;> simp [mapCol, colNames, h] <;>
      simpa [colNames] using ih

lemma colNames_dropCol (m : String) (df : Df) :
    colNames (dropCol m df) = (colNames df).filter (fun x => x != m) := by
  induction df with
  | nil => rfl
  | cons p t ih =>
    by_cases h : p.1 = m <;>
      simp [dropCol, colNames, List.filter_cons, h] <;>
      simpa [colNames] using ih

/-- C1: the cleaner maps the label values No to 0 and Yes to 1, but any
other label value is silently coerced to a missing value: on a one-row
frame whose Churn entry is "Maybe", the cleaned label column is [NaN] — no
fast failure and no flag — its values are not contained in {0, 1}, and the
count of 1s plus the count of 0s is 0, not the row count 1. -/
theorem churn_label_silent_nan :
    getCol "Churn" (clean
      [("customerID", [.str "c0"]), ("TotalCharges", [.str "10"]),
       ("Churn", [.str "Maybe"])]) = [Cell.nan] ∧
    (getCol "Churn" (clean
      [("customerID", [.str "c0"]), ("TotalCharges", [.str "10"]),
       ("Churn", [.str "Maybe"])])).count (Cell.num 1) +
    (getCol "Churn" (clean
      [("customerID", [.str "c0"]), ("TotalCharges", [.str "10"]),
       ("Churn", [.str "Maybe"])])).count (Cell.num 0) = 0 := by
  constructor <;> rfl

/-- C2 counterexample: on a dataset where no total-charge entry parses
numerically (here a single blank entry), the median over the non-missing
values is itself missing, `fillna` fills nothing, and the cleaned
total-charge column still contains a missing value — refuting the claim for
arbitrary datasets. -/
theorem totalCharges_missing_counterexample :
    getCol "TotalCharges" (clean
      [("customerID", [.str "c0"]), ("TotalCharges", [.str " "]),
       ("Churn", [.str "No"])]) = [Cell.nan] := by
  rfl

/-- C9: a missing input file makes the loader abort the whole run with the
re-raised error — `runOnce` produces only the diagnostic and no stage after
the loader runs — while a present file is handed over unchanged, never a
placeholder or truncated frame. -/
theorem missing_file_aborts :
    (∀ cfg : RunConfig, ∀ g : ℕ,
      runOnce cfg g none = Except.error "FileNotFoundError: class1_dataset.csv") ∧
    (∀ df : Df, loadCsv (some df) = Except.ok df) :=
  ⟨fun _ _ => rfl, fun _ => rfl⟩

/-- C3: the transformer state is fitted exactly once, from the training
partition only: the processing step produces `transform (fit train)` on
both partitions, and neither the fitted state nor the transformed training
matrix is influenced by the test partition (replacing the test partition by
any other leaves the training side untouched). -/
theorem transformer_fit_train_only (sq : ℚ → ℚ) (train test altTest : List FRow) :
    (processedPair sq train test).1 = transform sq (fit train) train ∧
    (processedPair sq train test).2 = transform sq (fit train) test ∧
    (processedPair sq train test).1 = (processedPair sq train altTest).1 :=
  ⟨rfl, rfl, rfl⟩

/-- C6: determinism as a two-run property: with every estimator constructed
with an explicit `random_state = 42`, two runs of load + clean + split +
transform + fit/predict under arbitrary (and arbitrarily different) ambient
global RNG states produce identical train/test partitions and identical
confusion counts, for any classifier satisfying the seed-deterministic
contract; the transformer fit consumes no randomness at all. -/
theorem run_deterministic_given_seed (cfg : RunConfig) (g g' : ℕ) (file : Option Df) :
    runOnce cfg g file = runOnce cfg g' file := rfl

/-- The cleaning cell, with its intermediate frames written out. -/
lemma clean_eq (df : Df) :
    clean df = mapCol "Churn" mapChurnCell
      (mapCol "TotalCharges"
        (fillCell (medianQ (numericValues (getCol "TotalCharges"
          (mapCol "TotalCharges" toNumericCell (dropCol "customerID" df))))))
        (mapCol "TotalCharges" toNumericCell (dropCol "customerID" df))) := rfl

/-- Columns other than the three named ones pass through cleaning intact. -/
lemma getCol_clean_other (df : Df) (name : String) (h1 : name ≠ "customerID")
    (h2 : name ≠ "TotalCharges") (h3 : name ≠ "Churn") :
    getCol name (clean df) = getCol name df := by
  rw [clean_eq, getCol_mapCol_ne _ _ h3, getCol_mapCol_ne _ _ h2,
    getCol_mapCol_ne _ _ h2, getCol_dropCol_ne _ _ h1]

/-- C10: cleaning is frame-limited: the column-name list afterwards is the
original one with exactly the identifier column removed (order kept); every
column other than the identifier, total-charge and label columns keeps its
values (hence also its row order) unchanged; and every surviving column
keeps its length, so the row count is unchanged. -/
theorem clean_frame_effect (df : Df) :
    colNames (clean df) = (colNames df).filter (fun x => x != "customerID") ∧
    (∀ name, name ≠ "customerID" → name ≠ "TotalCharges" → name ≠ "Churn" →
      getCol name (clean df) = getCol name df) ∧
    (∀ name, name ≠ "customerID" →
      (getCol name (clean df)).length = (getCol name df).length) := by
  refine ⟨?_, fun name h1 h2 h3 => getCol_clean_other df name h1 h2 h3, ?_⟩
  · rw [clean_eq, colNames_mapCol, colNames_mapCol, colNames_mapCol, colNames_dropCol]
  · intro name h1
    by_cases hTC : name = "TotalCharges"
    · subst hTC
      rw [clean_eq, getCol_mapCol_ne _ _ (by decide), getCol_mapCol_self,
        getCol_mapCol_self, List.length_map, List.length_map,
        getCol_dropCol_ne _ _ h1]
    · by_cases hCh : name = "Churn"
      · subst hCh
        rw [clean_eq, getCol_mapCol_self, List.length_map,
          getCol_mapCol_ne _ _ (by decide), getCol_mapCol_ne _ _ (by decide),
          getCol_dropCol_ne _ _ h1]
      · rw [getCol_clean_other df name h1 hTC hCh]

/-- C10 witness: on a concrete frame, a column that is neither the
identifier, the total-charge column nor the label is untouched by
cleaning. -/
theorem clean_frame_effect_witness :
    ("tenure" : String) ≠ "customerID" ∧
    getCol "tenure" (clean
      [("customerID", [.str "a"]), ("tenure", [.num 3]),
       ("TotalCharges", [.str "10"]), ("Churn", [.str "No"])])
      = getCol "tenure"
      [("customerID", [.str "a"]), ("tenure", [.num 3]),
       ("TotalCharges", [.str "10"]), ("Churn", [.str "No"])] :=
  ⟨by decide, (clean_frame_effect _).2.1 "tenure" (by decide) (by decide) (by decide)⟩

lemma insertQ_length (x : ℚ) (l : List ℚ) : (insertQ x l).length = l.length + 1 := by
  induction l with
  | nil => rfl
  | cons y ys ih => by_cases h : x ≤ y <;> simp [insertQ, h, ih]

lemma sortQ_length (xs : List ℚ) : (sortQ xs).length = xs.length := by
  induction xs with
  | nil => rfl
  | cons x t ih => simp [sortQ, List.foldr_cons] at ih ⊢; rw [insertQ_length, ih]

lemma medianQ_isSome (xs : List ℚ) (h : xs ≠ []) : ∃ m, medianQ xs = some m := by
  have hn : (sortQ xs).length ≠ 0 := by
    rw [sortQ_length]
    simpa using fun e => h (List.length_eq_zero.mp e)
  simp only [medianQ]
  split_ifs with h0 h1
  · exact absurd h0 hn
  · exact ⟨_, rfl⟩
  · exact ⟨_, rfl⟩

/-- `to_numeric` with coercion yields a number or NaN, never a string and
never an error. -/
lemma toNumericCell_shape (c : Cell) :
    (∃ q, toNumericCell c = Cell.num q) ∨ toNumericCell c = Cell.nan := by
  cases c with
  | num q => exact .inl ⟨q, rfl⟩
  | nan => exact .inr rfl
  | str s =>
    rcases hp : parseDecimal s with _ | q
    · exact .inr (by simp [toNumericCell, hp])
    · exact .inl ⟨q, by simp [toNumericCell, hp]⟩

/-- C2 (amended): for any dataset in which at least one total-charge entry
parses numerically, the cleaned total-charge column has no missing value
and is strictly numeric: every entry that fails numeric parsing becomes
missing rather than raising and is then replaced by the median of the
non-missing parsed values computed over the whole dataset (before any
split).  (The unamended claim fails when no entry parses: the median is
then itself missing and `fillna` fills nothing.) -/
theorem totalCharges_clean_amended (df : Df) (h : parsedCharges df ≠ []) :
    ∃ m, medianQ (parsedCharges df) = some m ∧
      getCol "TotalCharges" (clean df)
        = (getCol "TotalCharges" df).map (fun c => fillCell (some m) (toNumericCell c)) ∧
      ∀ c ∈ getCol "TotalCharges" (clean df), ∃ q, c = Cell.num q := by
  obtain ⟨m, hm⟩ := medianQ_isSome _ h
  have hTCd : getCol "TotalCharges"
      (mapCol "TotalCharges" toNumericCell (dropCol "customerID" df))
      = (getCol "TotalCharges" df).map toNumericCell := by
    rw [getCol_mapCol_self, getCol_dropCol_ne _ _ (by decide)]
  have hmed : medianQ (numericValues (getCol "TotalCharges"
      (mapCol "TotalCharges" toNumericCell (dropCol "customerID" df)))) = some m := by
    rw [hTCd]; exact hm
  have hcol : getCol "TotalCharges" (clean df)
      = (getCol "TotalCharges" df).map (fun c => fillCell (some m) (toNumericCell c)) := by
    rw [clean_eq, getCol_mapCol_ne _ _ (by decide), hmed, getCol_mapCol_self, hTCd,
      List.map_map]
    rfl
  refine ⟨m, hm, hcol, ?_⟩
  intro c hc
  rw [hcol] at hc
  obtain ⟨c0, _, rfl⟩ := List.mem_map.mp hc
  rcases toNumericCell_shape c0 with ⟨q, hq⟩ | hq <;> rw [hq]
  · exact ⟨q, rfl⟩
  · exact ⟨m, rfl⟩

/-- C2 witness: a frame with one parseable and one blank total-charge entry
satisfies the amended theorem's hypothesis, and its cleaned column is
numeric throughout, the blank imputed with the dataset median. -/
theorem totalCharges_clean_amended_witness :
    parsedCharges
      [("customerID", [.str "a", .str "b"]),
       ("TotalCharges", [.str "10", .str " "]),
       ("Churn", [.str "No", .str "Yes"])] ≠ [] ∧
    ∃ m, medianQ (parsedCharges
      [("customerID", [.str "a", .str "b"]),
       ("TotalCharges", [.str "10", .str " "]),
       ("Churn", [.str "No", .str "Yes"])]) = some m ∧
      getCol "TotalCharges" (clean
        [("customerID", [.str "a", .str "b"]),
         ("TotalCharges", [.str "10", .str " "]),
         ("Churn", [.str "No", .str "Yes"])])
        = (getCol "TotalCharges"
        [("customerID", [.str "a", .str "b"]),
         ("TotalCharges", [.str "10", .str " "]),
         ("Churn", [.str "No", .str "Yes"])]).map
            (fun c => fillCell (some m) (toNumericCell c)) ∧
      ∀ c ∈ getCol "TotalCharges" (clean
        [("customerID", [.str "a", .str "b"]),
         ("TotalCharges", [.str "10", .str " "]),
         ("Churn", [.str "No", .str "Yes"])]), ∃ q, c = Cell.num q :=
  ⟨by decide, totalCharges_clean_amended _ (by decide)⟩

lemma insertStr_perm (x : String) (l : List String) : (insertStr x l).Perm (x :: l) := by
  induction l with
  | nil => exact List.Perm.refl _
  | cons y ys ih =>
    cases h : strLe x y
    · simp only [insertStr, h, Bool.false_eq_true, if_false]
      exact (ih.cons y).trans (List.Perm.swap x y ys)
    · simp [insertStr, h]

lemma sortStr_perm (xs : List String) : (sortStr xs).Perm xs := by
  induction xs with
  | nil => exact List.Perm.refl _
  | cons x t ih => exact (insertStr_perm x (sortStr t)).trans (ih.cons x)

/-- The vocabulary recorded for a column has no duplicate categories. -/
lemma vocabOf_nodup (xs : List String) : (vocabOf xs).Nodup :=
  ((sortStr_perm xs.dedup).nodup_iff).mpr (List.nodup_dedup xs)

/-- A category that is unseen in the vocabulary, or equals the dropped
first (reference) level, is encoded as the all-zero indicator row. -/
lemma encodeCat_all_zero (vocab : List String) (v : String) (hnd : vocab.Nodup)
    (hv : v ∉ vocab ∨ v = vocab.headD "") :
    encodeCat vocab v = List.replicate vocab.tail.length 0 := by
  have hvt : v ∉ vocab.tail := by
    rcases hv with h | h
    · exact fun ht => h (List.mem_of_mem_tail ht)
    · cases vocab with
      | nil => simp
      | cons a t =>
        simp only [List.headD_cons] at h
        subst h
        exact (List.nodup_cons.mp hnd).1
  unfold encodeCat
  refine List.eq_replicate_iff.mpr ⟨by simp, ?_⟩
  intro b hb
  obtain ⟨c, hc, rfl⟩ := List.mem_map.mp hb
  have hne : v ≠ c := fun e => hvt (e ▸ hc)
  simp [hne]

lemma map_range_getD {α β : Type} (d : α) (g : α → β) (l : List α) :
    (List.range l.length).map (fun j => g (l.getD j d)) = l.map g := by
  induction l with
  | nil => rfl
  | cons x t ih =>
    rw [List.length_cons, List.range_succ_eq_map, List.map_cons, List.map_map]
    refine congrArg₂ List.cons rfl ?_
    have he : ((fun j => g ((x :: t).getD j d)) ∘ Nat.succ) = fun j => g (t.getD j d) :=
      funext fun j => by simp [Function.comp, List.getD_cons_succ]
    rw [he]
    exact ih

lemma getD_range_map {α : Type} (f : ℕ → α) (n j : ℕ) (d : α) (h : j < n) :
    ((List.range n).map f).getD j d = f j := by
  rw [List.getD_eq_getElem?_getD, List.getElem?_map, List.getElem?_range h]
  rfl

/-- Every transformed row has the same fixed width: one entry per stored
numeric column, then one indicator per retained (non-dropped) category. -/
lemma transformRow_length (sq : ℚ → ℚ) (st : FitState) (r : FRow) :
    (transformRow sq st r).length
      = st.means.length + (st.vocabs.map (fun v => v.tail.length)).sum := by
  simp only [transformRow, List.length_append, List.length_map, List.length_range,
    List.length_flatMap]
  have he : (List.length ∘ fun j => encodeCat (st.vocabs.getD j []) (r.cats.getD j ""))
      = fun j => (st.vocabs.getD j []).tail.length :=
    funext fun j => by simp [Function.comp, encodeCat]
  rw [he, map_range_getD ([] : List String) (fun v => v.tail.length) st.vocabs]

/-- C4: fitting on a training partition and transforming any test partition
never raises: the transform is total, producing one fixed-width numeric row
per test row, whatever the test partition contains; the vocabulary stored
for each categorical column is the one observed on the training column, and
any value that is unseen there (or is the dropped reference level) is
encoded as the all-zero indicator row. -/
theorem transform_total_unseen_zero (sq : ℚ → ℚ) (train test : List FRow) :
    (transform sq (fit train) test).length = test.length ∧
    (∀ r ∈ test, (transformRow sq (fit train) r).length
      = (fit train).means.length + ((fit train).vocabs.map (fun v => v.tail.length)).sum) ∧
    (∀ j, j < (fit train).vocabs.length →
      (fit train).vocabs.getD j [] = vocabOf (catColumn j train) ∧
      ∀ v : String,
        v ∉ vocabOf (catColumn j train) ∨ v = (vocabOf (catColumn j train)).headD "" →
        encodeCat (vocabOf (catColumn j train)) v
          = List.replicate (vocabOf (catColumn j train)).tail.length 0) := by
  refine ⟨by simp [transform], fun r _ => transformRow_length sq (fit train) r, ?_⟩
  intro j hj
  have hlen : (fit train).vocabs.length = (train.headD default).cats.length := by
    simp [fit]
  refine ⟨?_, fun v hv => encodeCat_all_zero _ v (vocabOf_nodup _) hv⟩
  have hj2 : j < (train.headD default).cats.length := hlen ▸ hj
  simp only [fit]
  exact getD_range_map _ _ j _ hj2

/-- C4 witness: a transformer fitted on two training rows with categories
"A" and "B" encodes the unseen test category "C" as the all-zero row, and
transforming a one-row test partition yields one row. -/
theorem transform_total_unseen_zero_witness :
    (transform id (fit [⟨[], ["A"]⟩, ⟨[], ["B"]⟩]) [⟨[], ["C"]⟩]).length = 1 ∧
    encodeCat (vocabOf (catColumn 0 [⟨[], ["A"]⟩, ⟨[], ["B"]⟩])) "C"
      = List.replicate (vocabOf (catColumn 0 [⟨[], ["A"]⟩, ⟨[], ["B"]⟩])).tail.length 0 :=
  ⟨(transform_total_unseen_zero id [⟨[], ["A"]⟩, ⟨[], ["B"]⟩] [⟨[], ["C"]⟩]).1,
   ((transform_total_unseen_zero id [⟨[], ["A"]⟩, ⟨[], ["B"]⟩] [⟨[], ["C"]⟩]).2.2 0
      (by decide)).2 "C" (by decide)⟩

/-- The four confusion cells partition the paired predictions, and the
matching pairs are exactly the TN and TP ones. -/
lemma countP_four (l : List (Bool × Bool)) :
    l.countP (fun p => !p.1 && !p.2) + l.countP (fun p => !p.1 && p.2)
      + l.countP (fun p => p.1 && !p.2) + l.countP (fun p => p.1 && p.2) = l.length ∧
    l.countP (fun p => p.1 == p.2)
      = l.countP (fun p => !p.1 && !p.2) + l.countP (fun p => p.1 && p.2) := by
  induction l with
  | nil => simp
  | cons a t ih =>
    obtain ⟨ih1, ih2⟩ := ih
    obtain ⟨a1, a2⟩ := a
    cases a1 <;> cases a2 <;> simp [List.countP_cons] <;> omega

/-- C7: for any model's predictions on the test partition, the four cells of
the 2×2 confusion matrix add up to the number of test rows, and the reported
accuracy equals (TN + TP) / (TN + FP + FN + TP) — correct predictions over
total predictions. -/
theorem confusion_accuracy_invariant (yT yP : List Bool) (h : yT.length = yP.length) :
    (confusionCounts yT yP).1 + (confusionCounts yT yP).2.1
      + (confusionCounts yT yP).2.2.1 + (confusionCounts yT yP).2.2.2 = yT.length ∧
    accuracy yT yP
      = (((confusionCounts yT yP).1 + (confusionCounts yT yP).2.2.2 : ℕ) : ℚ)
        / (((confusionCounts yT yP).1 + (confusionCounts yT yP).2.1
          + (confusionCounts yT yP).2.2.1 + (confusionCounts yT yP).2.2.2 : ℕ) : ℚ) := by
  have hz : (yT.zip yP).length = yT.length := by
    rw [List.length_zip, h, min_self]
  obtain ⟨h1, h2⟩ := countP_four (yT.zip yP)
  constructor
  · simpa [confusionCounts, hz] using h1
  · simp only [accuracy, confusionCounts]
    rw [h2]
    have hlen : yT.length
        = (yT.zip yP).countP (fun p => !p.1 && !p.2)
          + (yT.zip yP).countP (fun p => !p.1 && p.2)
          + (yT.zip yP).countP (fun p => p.1 && !p.2)
          + (yT.zip yP).countP (fun p => p.1 && p.2) := by rw [h1, hz]
    rw [hlen]

/-- C7 witness: on a concrete two-row test set the confusion cells add to
the test size. -/
theorem confusion_accuracy_invariant_witness :
    ([false, true] : List Bool).length = ([false, false] : List Bool).length ∧
    (confusionCounts [false, true] [false, false]).1
      + (confusionCounts [false, true] [false, false]).2.1
      + (confusionCounts [false, true] [false, false]).2.2.1
      + (confusionCounts [false, true] [false, false]).2.2.2
      = ([false, true] : List Bool).length :=
  ⟨rfl, (confusion_accuracy_invariant [false, true] [false, false] rfl).1⟩

lemma sum_map_center_div (xs : List ℚ) (c s : ℚ) :
    (xs.map (fun x => (x - c) / s)).sum = (xs.sum - xs.length * c) / s := by
  induction xs with
  | nil => simp
  | cons x t ih =>
    simp only [List.map_cons, List.sum_cons, List.length_cons, ih]
    push_cast
    ring

lemma sum_map_div (xs : List ℚ) (f : ℚ → ℚ) (d : ℚ) :
    (xs.map (fun x => f x / d)).sum = (xs.map f).sum / d := by
  induction xs with
  | nil => simp
  | cons x t ih =>
    simp only [List.map_cons, List.sum_cons, ih]
    ring

/-- Exact-arithmetic core of standardization: if `s` squares to the
population variance of `xs` (and is nonzero), the centred-and-scaled list
has mean exactly 0 and population variance exactly 1. -/
lemma scaled_mean_var (xs : List ℚ) (s : ℚ) (hs : s * s = varQ xs) (h0 : s ≠ 0) :
    meanQ (xs.map (fun x => (x - meanQ xs) / s)) = 0 ∧
    varQ (xs.map (fun x => (x - meanQ xs) / s)) = 1 := by
  have hxs : xs ≠ [] := by
    intro he
    apply h0
    have : s * s = 0 := by rw [hs, he]; simp [varQ]
    exact (mul_self_eq_zero).mp this
  have hn : (xs.length : ℚ) ≠ 0 := by
    simpa using fun e => hxs (List.length_eq_zero.mp e)
  have hsum : xs.sum = (xs.length : ℚ) * meanQ xs := by
    field_simp [meanQ]
  have hzero : meanQ (xs.map (fun x => (x - meanQ xs) / s)) = 0 := by
    obtain ⟨m, hm⟩ : ∃ m, meanQ xs = m := ⟨_, rfl⟩
    rw [hm] at hsum ⊢
    unfold meanQ
    rw [sum_map_center_div, List.length_map, hsum]
    simp
  refine ⟨hzero, ?_⟩
  have hvne : varQ xs ≠ 0 := by
    rw [← hs]
    exact mul_ne_zero h0 h0
  have hS : (xs.map (fun x => (x - meanQ xs) * (x - meanQ xs))).sum
      = varQ xs * xs.length := by
    unfold varQ
    field_simp
  unfold varQ
  rw [hzero, List.length_map]
  have hfun : (fun y : ℚ => (y - 0) * (y - 0)) = fun y => y * y := by
    funext y
    ring
  rw [hfun, List.map_map]
  have hcomp : ((fun y : ℚ => y * y) ∘ fun x => (x - meanQ xs) / s)
      = fun x => (x - meanQ xs) * (x - meanQ xs) / (s * s) := by
    funext x
    simp only [Function.comp]
    field_simp
  rw [hcomp, sum_map_div, hS, hs]
  field_simp

/-- The `j`-th column of a transformed partition is the `j`-th numeric
feature column, centred by the stored mean and divided by the stored
scale. -/
lemma transform_numCol (sq : ℚ → ℚ) (st : FitState) (rows : List FRow) (j : ℕ)
    (hj : j < st.means.length) :
    (transform sq st rows).map (fun row => row.getD j 0)
      = rows.map (fun r =>
          (r.nums.getD j 0 - st.means.getD j 0) / scaleOf sq (st.vars.getD j 0)) := by
  unfold transform
  rw [List.map_map]
  have he : ((fun row : List ℚ => row.getD j 0) ∘ transformRow sq st)
      = fun r => (r.nums.getD j 0 - st.means.getD j 0) / scaleOf sq (st.vars.getD j 0) := by
    funext r
    simp only [Function.comp, transformRow]
    rw [List.getD_append _ _ _ _ (by simpa using hj)]
    exact getD_range_map _ _ _ _ hj
  rw [he]

/-- C8 counterexample: on a training partition whose numeric column is
constant, the scaler stores variance 0, replaces the zero scale by 1, and
maps the column to all zeros — whose standard deviation is 0, not ≈1 — so
the claim fails for such a column (its mean is still 0). -/
theorem scaler_constant_column_counterexample :
    (transform id (fit [⟨[5], []⟩, ⟨[5], []⟩]) [⟨[5], []⟩, ⟨[5], []⟩]).map
      (fun row => row.getD 0 0) = [0, 0] ∧
    varQ ((transform id (fit [⟨[5], []⟩, ⟨[5], []⟩]) [⟨[5], []⟩, ⟨[5], []⟩]).map
      (fun row => row.getD 0 0)) = 0 := by
  have h : (transform id (fit [⟨[5], []⟩, ⟨[5], []⟩]) [⟨[5], []⟩, ⟨[5], []⟩]).map
      (fun row => row.getD 0 0) = [0, 0] := by
    norm_num [transform, transformRow, fit, scaleOf, meanQ, varQ, numColumn,
      catColumn, List.range_succ, List.getD_cons_zero]
  refine ⟨h, ?_⟩
  rw [h]
  norm_num [varQ, meanQ]

/-- C8 (amended): every numeric column whose variance on the training
partition is nonzero is standardized exactly: after fitting on the training
partition and transforming it, the column — each value mapped to
`(x - mean) / scale` with the mean and scale computed from the training
partition only, the scale squaring to the training variance — has mean
exactly 0 and population variance exactly 1.  (A constant column is instead
mapped to all zeros, see the counterexample.) -/
theorem scaler_mean_zero_var_one (sq : ℚ → ℚ) (train : List FRow) (j : ℕ)
    (hj : j < (fit train).means.length)
    (hvar : varQ (numColumn j train) ≠ 0)
    (hsq : sq (varQ (numColumn j train)) * sq (varQ (numColumn j train))
        = varQ (numColumn j train)) :
    meanQ ((transform sq (fit train) train).map (fun row => row.getD j 0)) = 0 ∧
    varQ ((transform sq (fit train) train).map (fun row => row.getD j 0)) = 1 := by
  have hjw : j < (train.headD default).nums.length := by
    simpa [fit] using hj
  have hmean : (fit train).means.getD j 0 = meanQ (numColumn j train) := by
    simp only [fit]
    exact getD_range_map _ _ _ _ hjw
  have hvars : (fit train).vars.getD j 0 = varQ (numColumn j train) := by
    simp only [fit]
    exact getD_range_map _ _ _ _ hjw
  have hsne : sq (varQ (numColumn j train)) ≠ 0 := by
    intro e
    rw [e, zero_mul] at hsq
    exact hvar hsq.symm
  have hscale : scaleOf sq ((fit train).vars.getD j 0) = sq (varQ (numColumn j train)) := by
    rw [hvars]
    unfold scaleOf
    rw [if_neg hsne]
  rw [transform_numCol sq (fit train) train j hj, hscale, hmean]
  have hmm : train.map (fun r =>
        (r.nums.getD j 0 - meanQ (numColumn j train)) / sq (varQ (numColumn j train)))
      = (numColumn j train).map (fun x =>
          (x - meanQ (numColumn j train)) / sq (varQ (numColumn j train))) := by
    unfold numColumn
    rw [List.map_map]
    rfl
  rw [hmm]
  exact scaled_mean_var _ _ hsq hsne

/-- C8 witness: the training column [0, 2] has variance 1, and after the
fitted transform it has mean 0 and variance 1. -/
theorem scaler_mean_zero_var_one_witness :
    varQ (numColumn 0 [⟨[0], []⟩, ⟨[2], []⟩]) ≠ 0 ∧
    meanQ ((transform id (fit [⟨[0], []⟩, ⟨[2], []⟩]) [⟨[0], []⟩, ⟨[2], []⟩]).map
      (fun row => row.getD 0 0)) = 0 ∧
    varQ ((transform id (fit [⟨[0], []⟩, ⟨[2], []⟩]) [⟨[0], []⟩, ⟨[2], []⟩]).map
      (fun row => row.getD 0 0)) = 1 :=
  ⟨by norm_num [varQ, meanQ, numColumn],
   (scaler_mean_zero_var_one id [⟨[0], []⟩, ⟨[2], []⟩] 0 (by decide)
      (by norm_num [varQ, meanQ, numColumn]) (by norm_num [varQ, meanQ, numColumn])).1,
   (scaler_mean_zero_var_one id [⟨[0], []⟩, ⟨[2], []⟩] 0 (by decide)
      (by norm_num [varQ, meanQ, numColumn]) (by norm_num [varQ, meanQ, numColumn])).2⟩

lemma count_false_add_count_true (l : List Bool) :
    l.count false + l.count true = l.length := by
  induction l with
  | nil => rfl
  | cons x t ih => cases x <;> simp [List.count_cons] <;> omega

lemma classIdx_length (b : Bool) (ls : List Bool) (k : ℕ) :
    (classIdx b ls k).length = ls.count b := by
  induction ls generalizing k with
  | nil => rfl
  | cons x t ih =>
    by_cases h : x = b <;>
      simp [classIdx, h, List.count_cons, ih (k + 1)]

lemma classIdx_spec (b : Bool) (ls : List Bool) (k : ℕ) :
    ∀ i ∈ classIdx b ls k, k ≤ i ∧ i - k < ls.length ∧ ∀ d, ls.getD (i - k) d = b := by
  induction ls generalizing k with
  | nil => intro i hi; simp [classIdx] at hi
  | cons x t ih =>
    intro i hi
    by_cases h : x = b
    · rw [classIdx, if_pos h] at hi
      rcases List.mem_cons.mp hi with rfl | hi2
      · exact ⟨le_refl _, by simp, fun d => by simp [h]⟩
      · obtain ⟨h1, h2, h3⟩ := ih (k + 1) i hi2
        refine ⟨by omega, by simp only [List.length_cons]; omega, fun d => ?_⟩
        have he : i - k = (i - (k + 1)) + 1 := by omega
        rw [he, List.getD_cons_succ]
        exact h3 d
    · rw [classIdx, if_neg h] at hi
      obtain ⟨h1, h2, h3⟩ := ih (k + 1) i hi
      refine ⟨by omega, by simp only [List.length_cons]; omega, fun d => ?_⟩
      have he : i - k = (i - (k + 1)) + 1 := by omega
      rw [he, List.getD_cons_succ]
      exact h3 d

lemma classIdx_nodup (b : Bool) (ls : List Bool) (k : ℕ) : (classIdx b ls k).Nodup := by
  induction ls generalizing k with
  | nil => exact List.nodup_nil
  | cons x t ih =>
    by_cases h : x = b
    · rw [classIdx, if_pos h]
      refine List.nodup_cons.mpr ⟨fun hk => ?_, ih (k + 1)⟩
      have := (classIdx_spec b t (k + 1) k hk).1
      omega
    · rw [classIdx, if_neg h]
      exact ih (k + 1)

lemma classIdx_disjoint (ls : List Bool) (i : ℕ) (b b' : Bool) (hbb : b ≠ b')
    (hi : i ∈ classIdx b ls 0) : i ∉ classIdx b' ls 0 := by
  intro hi2
  have h1 := (classIdx_spec b ls 0 i hi).2.2 false
  have h2 := (classIdx_spec b' ls 0 i hi2).2.2 false
  rw [h1] at h2
  exact hbb h2

/-- Arithmetic core of `_approximate_mode`: with the floors `f0`, `f1` and
remainders `r0`, `r1` of the two proportional shares, the floors fit under
the class sizes and under the draw count, the remainders add to 0 or to one
full denominator (so at most one leftover slot exists), and a nonzero
remainder leaves strict room in its class. -/
lemma approxBounds (n t f0 f1 r0 r1 c0 c1 : ℕ) (hn : 0 < n) (hnc : n = c0 + c1)
    (e0 : n * f0 + r0 = c0 * t) (e1 : n * f1 + r1 = c1 * t)
    (hr0 : r0 < n) (hr1 : r1 < n) (ht : t ≤ n) :
    f1 ≤ c1 ∧ f0 ≤ c0 ∧ f0 + f1 ≤ t ∧
    ((t - f0 - f1 = 0 ∧ r0 + r1 = 0) ∨ (t - f0 - f1 = 1 ∧ r0 + r1 = n)) ∧
    (r1 ≠ 0 → f1 + 1 ≤ c1) ∧ (r0 ≠ 0 → f0 + 1 ≤ c0) := by
  have hc1t : c1 * t ≤ c1 * n := Nat.mul_le_mul_left c1 ht
  have hc0t : c0 * t ≤ c0 * n := Nat.mul_le_mul_left c0 ht
  have hcc1 : c1 * n = n * c1 := Nat.mul_comm _ _
  have hcc0 : c0 * n = n * c0 := Nat.mul_comm _ _
  have key : n * f0 + r0 + (n * f1 + r1) = n * t := by
    rw [e0, e1, ← Nat.add_mul, ← hnc]
  have hstrict1 : r1 ≠ 0 → f1 + 1 ≤ c1 := by
    intro hr
    by_contra hcon
    push_neg at hcon
    have hle : c1 ≤ f1 := by omega
    have h1 : n * c1 ≤ n * f1 := Nat.mul_le_mul_left n hle
    have hr1' : 1 ≤ r1 := Nat.one_le_iff_ne_zero.mpr hr
    linarith [e1, hc1t, hcc1, h1]
  have hstrict0 : r0 ≠ 0 → f0 + 1 ≤ c0 := by
    intro hr
    by_contra hcon
    push_neg at hcon
    have hle : c0 ≤ f0 := by omega
    have h1 : n * c0 ≤ n * f0 := Nat.mul_le_mul_left n hle
    have hr0' : 1 ≤ r0 := Nat.one_le_iff_ne_zero.mpr hr
    linarith [e0, hc0t, hcc0, h1]
  have hf1c : f1 ≤ c1 := by
    by_contra hcon
    push_neg at hcon
    have h1 : n * (c1 + 1) ≤ n * f1 := Nat.mul_le_mul_left n hcon
    have h2 : n * (c1 + 1) = n * c1 + n := by ring
    linarith [e1, hc1t, hcc1, hn]
  have hf0c : f0 ≤ c0 := by
    by_contra hcon
    push_neg at hcon
    have h1 : n * (c0 + 1) ≤ n * f0 := Nat.mul_le_mul_left n hcon
    have h2 : n * (c0 + 1) = n * c0 + n := by ring
    linarith [e0, hc0t, hcc0, hn]
  have hff : f0 + f1 ≤ t := by
    by_contra hcon
    push_neg at hcon
    have h1 : n * (t + 1) ≤ n * (f0 + f1) := Nat.mul_le_mul_left n (by omega)
    have h2 : n * (f0 + f1) = n * f0 + n * f1 := by ring
    have h3 : n * (t + 1) = n * t + n := by ring
    linarith [key, hn]
  have hd : (t - f0 - f1 = 0 ∧ r0 + r1 = 0) ∨ (t - f0 - f1 = 1 ∧ r0 + r1 = n) := by
    obtain ⟨d, hdd⟩ : ∃ d, t = f0 + f1 + d := ⟨t - f0 - f1, by omega⟩
    have h2 : n * t = n * f0 + n * f1 + n * d := by rw [hdd]; ring
    have hrd : r0 + r1 = n * d := by linarith [key]
    have hdle : d ≤ 1 := by
      by_contra hcon
      push_neg at hcon
      have h1 : n * 2 ≤ n * d := Nat.mul_le_mul_left n hcon
      linarith [hrd, hr0, hr1]
    rcases Nat.lt_or_ge d 1 with h | h
    · left
      have hd0 : d = 0 := by omega
      rw [hd0] at hrd
      exact ⟨by omega, by simpa using hrd⟩
    · right
      have hd1 : d = 1 := by omega
      rw [hd1] at hrd
      exact ⟨by omega, by simpa using hrd⟩
  exact ⟨hf1c, hf0c, hff, hd, hstrict1, hstrict0⟩

/-- The per-class train allocation of the stratified splitter stays between
the floor of the proportional share and that floor plus one, never exceeds
its class size, leaves the other class enough rows, and fits in the train
size. -/
lemma trainCount1_bounds (c0 c1 t : ℕ) (tie : Bool) (ht : t ≤ c0 + c1) :
    c1 * t / (c0 + c1) ≤ trainCount1 c0 c1 t tie ∧
    trainCount1 c0 c1 t tie ≤ c1 * t / (c0 + c1) + 1 ∧
    trainCount1 c0 c1 t tie ≤ c1 ∧
    t - trainCount1 c0 c1 t tie ≤ c0 ∧
    trainCount1 c0 c1 t tie ≤ t := by
  rcases Nat.eq_zero_or_pos (c0 + c1) with hn | hn
  · have h0 : c0 = 0 := by omega
    have h1 : c1 = 0 := by omega
    have h2 : t = 0 := by omega
    subst h0
    subst h1
    subst h2
    simp [trainCount1]
  · have e1 := Nat.div_add_mod (c1 * t) (c0 + c1)
    have e0 := Nat.div_add_mod (c0 * t) (c0 + c1)
    obtain ⟨A, B, C, D, F, G⟩ := approxBounds (c0 + c1) t
      (c0 * t / (c0 + c1)) (c1 * t / (c0 + c1))
      (c0 * t % (c0 + c1)) (c1 * t % (c0 + c1)) c0 c1 hn rfl e0 e1
      (Nat.mod_lt _ hn) (Nat.mod_lt _ hn) ht
    simp only [trainCount1]
    revert A B C D F G
    generalize c1 * t / (c0 + c1) = F1
    generalize c0 * t / (c0 + c1) = F0
    generalize c1 * t % (c0 + c1) = R1
    generalize c0 * t % (c0 + c1) = R0
    intro A B C D F G
    split_ifs with h1 h2 h3 h4
    · rcases D with ⟨hd, hr⟩ | ⟨hd, hr⟩ <;>
        exact ⟨le_refl _, by omega, A, by omega, by omega⟩
    · rcases D with ⟨hd, hr⟩ | ⟨hd, hr⟩
      · exact absurd hd h1
      · have hf := F (by omega)
        exact ⟨by omega, le_refl _, hf, by omega, by omega⟩
    · rcases D with ⟨hd, hr⟩ | ⟨hd, hr⟩
      · exact absurd hd h1
      · have hg := G (by omega)
        exact ⟨le_refl _, by omega, A, by omega, by omega⟩
    · rcases D with ⟨hd, hr⟩ | ⟨hd, hr⟩
      · exact absurd hd h1
      · have hg := G (by omega)
        exact ⟨le_refl _, by omega, A, by omega, by omega⟩
    · rcases D with ⟨hd, hr⟩ | ⟨hd, hr⟩
      · exact absurd hd h1
      · have hf := F (by omega)
        exact ⟨by omega, le_refl _, hf, by omega, by omega⟩

/-- A count lying within one of the floor of `c * t / n` differs from the
exact proportional share by at most one denominator. -/
lemma key_bound (k f r c t n : ℕ) (e : n * f + r = c * t) (hr : r < n)
    (hk1 : f ≤ k) (hk2 : k ≤ f + 1) :
    |(k : ℚ) * n - (c : ℚ) * t| ≤ n := by
  have hk : k = f ∨ k = f + 1 := by omega
  have ecast : (n : ℚ) * f + r = (c : ℚ) * t := by exact_mod_cast e
  have hrc : (r : ℚ) < n := by exact_mod_cast hr
  have hr0 : (0 : ℚ) ≤ r := by positivity
  rcases hk with rfl | rfl <;> rw [abs_le] <;>
    constructor <;> push_cast <;> linarith

/-- From the cross-multiplied bound to the proportion bound. -/
lemma prop_bound_core (k c t n : ℕ) (hn : 0 < n) (ht : 0 < t)
    (key : |(k : ℚ) * n - (c : ℚ) * t| ≤ n) :
    |(k : ℚ) / t - (c : ℚ) / n| ≤ 1 / t := by
  have hnq : (0 : ℚ) < n := by exact_mod_cast hn
  have htq : (0 : ℚ) < t := by exact_mod_cast ht
  have heq : (k : ℚ) / t - (c : ℚ) / n = ((k : ℚ) * n - (c : ℚ) * t) / (t * n) := by
    field_simp
    ring
  rw [heq, abs_div, abs_of_pos (mul_pos htq hnq),
    div_le_div_iff₀ (mul_pos htq hnq) htq]
  have h2 := mul_le_mul_of_nonneg_right key htq.le
  linarith [h2]

/-- C5 (amended): the stratified 80/20 splitter partitions the rows — train
size `n - ⌈n/5⌉`, test size `⌈n/5⌉`, sizes adding to the row count, no row
in both — and stratifies exactly: the churn count of the train partition is
the proportional share rounded within one row, so each partition's label
proportion is within 1/(partition size) of the full-set proportion p (the
fixed ±1% of the unamended claim is impossible for small partitions, see
the counterexample). -/
theorem strat_split_amended (labels : List Bool) (p0 p1 : List ℕ) (tie : Bool)
    (h0 : p0.Perm (classIdx false labels 0)) (h1 : p1.Perm (classIdx true labels 0))
    (htr : 0 < nTrainOf labels.length) :
    (stratSplit labels p0 p1 tie).1.length = nTrainOf labels.length ∧
    (stratSplit labels p0 p1 tie).2.length = nTestOf labels.length ∧
    (stratSplit labels p0 p1 tie).1.length + (stratSplit labels p0 p1 tie).2.length
      = labels.length ∧
    (∀ i ∈ (stratSplit labels p0 p1 tie).1, i ∉ (stratSplit labels p0 p1 tie).2) ∧
    |(churnCountAt labels (stratSplit labels p0 p1 tie).1 : ℚ)
        / (nTrainOf labels.length : ℚ)
      - (labels.count true : ℚ) / (labels.length : ℚ)|
      ≤ 1 / (nTrainOf labels.length : ℚ) ∧
    |(churnCountAt labels (stratSplit labels p0 p1 tie).2 : ℚ)
        / (nTestOf labels.length : ℚ)
      - (labels.count true : ℚ) / (labels.length : ℚ)|
      ≤ 1 / (nTestOf labels.length : ℚ) := by
  set n := labels.length with hn
  set c0 := labels.count false with hc0
  set c1 := labels.count true with hc1
  set t := nTrainOf n with htdef
  set k1 := trainCount1 c0 c1 t tie with hk1def
  set k0 := t - k1 with hk0def
  have hcc : c0 + c1 = n := count_false_add_count_true labels
  have hA : nTestOf n = (n + 4) / 5 := rfl
  have hB : t = n - (n + 4) / 5 := by rw [htdef]; rfl
  have hL0 : p0.length = c0 := by rw [h0.length_eq, classIdx_length]
  have hL1 : p1.length = c1 := by rw [h1.length_eq, classIdx_length]
  have htle : t ≤ c0 + c1 := by omega
  obtain ⟨B1, B2, B3, B4, B5⟩ := trainCount1_bounds c0 c1 t tie htle
  rw [← hk1def] at B1 B2 B3 B4 B5
  have hs1 : (stratSplit labels p0 p1 tie).1 = p0.take k0 ++ p1.take k1 := rfl
  have hs2 : (stratSplit labels p0 p1 tie).2 = p0.drop k0 ++ p1.drop k1 := rfl
  have hnd0 : p0.Nodup := (h0.nodup_iff).mpr (classIdx_nodup _ _ _)
  have hnd1 : p1.Nodup := (h1.nodup_iff).mpr (classIdx_nodup _ _ _)
  have hlen1 : (stratSplit labels p0 p1 tie).1.length = t := by
    rw [hs1, List.length_append, List.length_take, List.length_take, hL0, hL1]
    omega
  have hlen2 : (stratSplit labels p0 p1 tie).2.length = nTestOf n := by
    rw [hs2, List.length_append, List.length_drop, List.length_drop, hL0, hL1]
    omega
  have hmem0 : ∀ a ∈ p0, labels.getD a false = false := by
    intro a ha
    have ham : a ∈ classIdx false labels 0 := (h0.mem_iff).mp ha
    have hh := (classIdx_spec false labels 0 a ham).2.2 false
    simpa using hh
  have hmem1 : ∀ a ∈ p1, labels.getD a false = true := by
    intro a ha
    have ham : a ∈ classIdx true labels 0 := (h1.mem_iff).mp ha
    have hh := (classIdx_spec true labels 0 a ham).2.2 false
    simpa using hh
  have hcount1 : churnCountAt labels (stratSplit labels p0 p1 tie).1 = k1 := by
    unfold churnCountAt
    rw [hs1, List.countP_append]
    have hz : (p0.take k0).countP (fun i => labels.getD i false) = 0 :=
      List.countP_eq_zero.mpr (fun a ha => by
        have h := hmem0 a (List.mem_of_mem_take ha)
        simp only [h]
        simp)
    have hful : (p1.take k1).countP (fun i => labels.getD i false)
        = (p1.take k1).length :=
      List.countP_eq_length.mpr (fun a ha => by
        have h := hmem1 a (List.mem_of_mem_take ha)
        simp only [h])
    rw [hz, hful, List.length_take, hL1]
    omega
  have hcount2 : churnCountAt labels (stratSplit labels p0 p1 tie).2 = c1 - k1 := by
    unfold churnCountAt
    rw [hs2, List.countP_append]
    have hz : (p0.drop k0).countP (fun i => labels.getD i false) = 0 :=
      List.countP_eq_zero.mpr (fun a ha => by
        have h := hmem0 a (List.mem_of_mem_drop ha)
        simp only [h]
        simp)
    have hful : (p1.drop k1).countP (fun i => labels.getD i false)
        = (p1.drop k1).length :=
      List.countP_eq_length.mpr (fun a ha => by
        have h := hmem1 a (List.mem_of_mem_drop ha)
        simp only [h])
    rw [hz, hful, List.length_drop, hL1]
    omega
  have hnpos : 0 < n := by omega
  have htpos : 0 < t := htr
  have htepos : 0 < nTestOf n := by omega
  have e1 := Nat.div_add_mod (c1 * t) (c0 + c1)
  rw [hcc] at e1
  have hr1 : c1 * t % n < n := by
    have := Nat.mod_lt (c1 * t) (y := n) hnpos
    omega
  have hB1' : c1 * t / n ≤ k1 := by
    have : c1 * t / (c0 + c1) = c1 * t / n := by rw [hcc]
    omega
  have hB2' : k1 ≤ c1 * t / n + 1 := by
    have : c1 * t / (c0 + c1) = c1 * t / n := by rw [hcc]
    omega
  have hkey1 : |(k1 : ℚ) * n - (c1 : ℚ) * t| ≤ n :=
    key_bound k1 (c1 * t / n) (c1 * t % n) c1 t n e1 hr1 hB1' hB2'
  have hprop1 : |(k1 : ℚ) / t - (c1 : ℚ) / n| ≤ 1 / t :=
    prop_bound_core k1 c1 t n hnpos htpos hkey1
  have hc1k : ((c1 - k1 : ℕ) : ℚ) = (c1 : ℚ) - k1 := by
    push_cast [B3]
    ring
  have hteN : nTestOf n = n - t := by omega
  have hteC : ((nTestOf n : ℕ) : ℚ) = (n : ℚ) - t := by
    rw [hteN]
    push_cast [show t ≤ n by omega]
    ring
  have hkey2 : |((c1 - k1 : ℕ) : ℚ) * n - (c1 : ℚ) * (nTestOf n)| ≤ n := by
    have he : ((c1 - k1 : ℕ) : ℚ) * n - (c1 : ℚ) * (nTestOf n)
        = -((k1 : ℚ) * n - (c1 : ℚ) * t) := by
      rw [hc1k, hteC]
      ring
    rw [he, abs_neg]
    exact hkey1
  have hprop2 : |((c1 - k1 : ℕ) : ℚ) / (nTestOf n) - (c1 : ℚ) / n| ≤ 1 / (nTestOf n) :=
    prop_bound_core (c1 - k1) c1 (nTestOf n) n hnpos htepos hkey2
  refine ⟨hlen1, hlen2, by omega, ?_, ?_, ?_⟩
  · intro i hi hi2
    rw [hs1] at hi
    rw [hs2] at hi2
    rcases List.mem_append.mp hi with hi0 | hi1 <;>
      rcases List.mem_append.mp hi2 with hj0 | hj1
    · exact List.disjoint_take_drop hnd0 (le_refl k0) hi0 hj0
    · exact classIdx_disjoint labels i false true (by simp)
        ((h0.mem_iff).mp (List.mem_of_mem_take hi0))
        ((h1.mem_iff).mp (List.mem_of_mem_drop hj1))
    · exact classIdx_disjoint labels i true false (by simp)
        ((h1.mem_iff).mp (List.mem_of_mem_take hi1))
        ((h0.mem_iff).mp (List.mem_of_mem_drop hj0))
    · exact List.disjoint_take_drop hnd1 (le_refl k1) hi1 hj1
  · rw [hcount1]
    exact hprop1
  · rw [hcount2]
    exact hprop2

/-- A ten-row label vector with three churners, as sklearn sees it after
`np.unique`: class counts (7, 3). -/
def labelsEx : List Bool :=
  [true, true, true, false, false, false, false, false, false, false]

/-- A five-row label vector with one churner. -/
def labelsEx5 : List Bool := [true, false, false, false, false]

/-- C5 counterexample: on ten rows with churn proportion p = 3/10, the
splitter takes 8 train rows (6 non-churn + 2 churn) and 2 test rows
(1 + 1): the train proportion 1/4 misses p by 5% and the test proportion
1/2 misses p by 20% — both far outside the claimed ±1% tolerance. -/
theorem strat_split_tolerance_counterexample :
    ¬ (|(churnCountAt labelsEx (stratSplit labelsEx (classIdx false labelsEx 0)
          (classIdx true labelsEx 0) true).1 : ℚ)
        / (nTrainOf labelsEx.length : ℚ)
      - (labelsEx.count true : ℚ) / (labelsEx.length : ℚ)| ≤ 1 / 100) ∧
    ¬ (|(churnCountAt labelsEx (stratSplit labelsEx (classIdx false labelsEx 0)
          (classIdx true labelsEx 0) true).2 : ℚ)
        / (nTestOf labelsEx.length : ℚ)
      - (labelsEx.count true : ℚ) / (labelsEx.length : ℚ)| ≤ 1 / 100) := by
  have e1 : churnCountAt labelsEx (stratSplit labelsEx (classIdx false labelsEx 0)
      (classIdx true labelsEx 0) true).1 = 2 := by decide
  have e2 : churnCountAt labelsEx (stratSplit labelsEx (classIdx false labelsEx 0)
      (classIdx true labelsEx 0) true).2 = 1 := by decide
  have e3 : nTrainOf labelsEx.length = 8 := by decide
  have e4 : nTestOf labelsEx.length = 2 := by decide
  have e5 : labelsEx.count true = 3 := by decide
  have e6 : labelsEx.length = 10 := by decide
  constructor
  · rw [e1, e3, e5, e6]
    intro h
    push_cast at h
    have hv : (2 : ℚ) / 8 - 3 / 10 = -(1 / 20) := by norm_num
    rw [hv, abs_neg, abs_of_pos (by norm_num : (0 : ℚ) < 1 / 20)] at h
    norm_num at h
  · rw [e2, e4, e5, e6]
    intro h
    push_cast at h
    have hv : (1 : ℚ) / 2 - 3 / 10 = 1 / 5 := by norm_num
    rw [hv, abs_of_pos (by norm_num : (0 : ℚ) < 1 / 5)] at h
    norm_num at h

/-- C5 witness: on five rows the identity stratum shuffles satisfy the
permutation hypotheses, the train partition has the 4 = 5 - ⌈5/5⌉ rows and
the test partition the remaining ⌈5/5⌉ = 1. -/
theorem strat_split_amended_witness :
    0 < nTrainOf labelsEx5.length ∧
    (stratSplit labelsEx5 (classIdx false labelsEx5 0) (classIdx true labelsEx5 0)
      true).1.length = nTrainOf labelsEx5.length ∧
    (stratSplit labelsEx5 (classIdx false labelsEx5 0) (classIdx true labelsEx5 0)
      true).2.length = nTestOf labelsEx5.length :=
  ⟨by decide,
   (strat_split_amended labelsEx5 (classIdx false labelsEx5 0)
      (classIdx true labelsEx5 0) true (List.Perm.refl _) (List.Perm.refl _)
      (by decide)).1,
   (strat_split_amended labelsEx5 (classIdx false labelsEx5 0)
      (classIdx true labelsEx5 0) true (List.Perm.refl _) (List.Perm.refl _)
      (by decide)).2.1⟩

end Churn
